import Mathlib

/-!
# Buddy allocator: shallow embedding and verification

A shallow embedding of the buddy allocator from `src/buddy_allocator.rs`,
`src/alloc_table.rs` and `src/errors.rs` (the slab-based implementation the
spec was written from).  Addresses are modelled as natural numbers (the arena
base address is an arbitrary `base : Nat`); the in-place mutation of the Rust
code becomes explicit state passing: every operation returns its result
*together with* the tree / allocator state after the call, so that "an error
leaves the state unchanged" is a theorem, not a modelling artefact.
-/

namespace Buddy

/-- `FreeError` from `src/errors.rs`. -/
inductive FreeError where
  | doubleFree
  | unalignedFree
  | nullPtrFree
  | freeOutOfBounds
deriving DecidableEq, Repr

/-- `AllocError` from `src/errors.rs`. -/
inductive AllocError where
  | outOfMemory
  | zeroAllocation
deriving DecidableEq, Repr

/-- A node of the allocation tree (`BlockNode` + `BlockState` from
`src/alloc_table.rs`, with the `state` field inlined into the constructors:
each node carries its `block_address`, its `size`, and is a `FreeLeaf`, a
`Parent` of two child nodes, or an `AllocatedLeaf`). -/
inductive BlockNode where
  | freeLeaf (blockAddress size : Nat)
  | parent (blockAddress size : Nat) (left right : BlockNode)
  | allocatedLeaf (blockAddress size : Nat)
deriving DecidableEq, Repr

namespace BlockNode

/-- The `block_address` field of a node. -/
def blockAddress : BlockNode → Nat
  | .freeLeaf a _ => a
  | .parent a _ _ _ => a
  | .allocatedLeaf a _ => a

/-- The `size` field of a node. -/
def size : BlockNode → Nat
  | .freeLeaf _ s => s
  | .parent _ s _ _ => s
  | .allocatedLeaf _ s => s

/-- Whether the node's state is `FreeLeaf`. -/
def isFreeLeaf : BlockNode → Bool
  | .freeLeaf _ _ => true
  | _ => false

/-- `BlockNode::new` from `src/alloc_table.rs`: a fresh free leaf. -/
def new (size : Nat) (address : Nat) : BlockNode :=
  .freeLeaf address size

/-- `BlockNode::alloc_down` (merged with `BlockNode::new_alloc`, which merely
wraps the returned state into a node with the given address and size):
recursively split the free block at `blockAddress` of size `blockSize` until
the smallest block that fits `allocSize` is isolated.  Returns the replacement
node and the number of bytes committed.

The Rust function diverges when `alloc_size = 0` and `block_size = 0`; every
call site guarantees `alloc_size > 0` (the facade rejects size-0 requests), so
the embedding carries that fact as the termination hypothesis `h`. -/
def allocDown (B : Nat) (blockAddress blockSize allocSize : Nat)
    (h : 0 < allocSize) : BlockNode × Nat :=
  let halfSize := blockSize / 2
  if allocSize > halfSize ∨ blockSize = B then
    (.allocatedLeaf blockAddress blockSize, blockSize)
  else
    let res := allocDown B blockAddress halfSize allocSize h
    (.parent blockAddress blockSize res.1
       (.freeLeaf (blockAddress + halfSize) halfSize),
     res.2)
termination_by blockSize
decreasing_by
  simp only [not_or, not_lt] at *
  omega

/-- `BlockNode::alloc` from `src/alloc_table.rs`: depth-first left-first
search for a free block of at least `allocSize` bytes.  Returns
`(some (pointer, bytes_committed), tree-after-call)` on success and
`(none, tree-after-call)` on a miss. -/
def alloc (B : Nat) : BlockNode → (allocSize : Nat) → 0 < allocSize →
    Option (Nat × Nat) × BlockNode
  | .freeLeaf a s, allocSize, h =>
    if s < allocSize then
      (none, .freeLeaf a s)
    else
      let res := allocDown B a s allocSize h
      (some (a, res.2), res.1)
  | .parent a s l r, allocSize, h =>
    if s ≤ allocSize then
      (none, .parent a s l r)
    else
      match l.alloc B allocSize h with
      | (some res, l') => (some res, .parent a s l' r)
      | (none, l') =>
        match r.alloc B allocSize h with
        | (some res, r') => (some res, .parent a s l' r')
        | (none, r') => (none, .parent a s l' r')
  | .allocatedLeaf a s, _, _ => (none, .allocatedLeaf a s)

/-- `BlockNode::free` from `src/alloc_table.rs`: descend following the
pointer (left when `ptr < right.block_address`), free the matching allocated
leaf, and eagerly coalesce a parent whose two children are now both free.
Returns the freed size (or the error) together with the tree after the call. -/
def free : BlockNode → Nat → Except FreeError Nat × BlockNode
  | .freeLeaf a s, _ => (.error .doubleFree, .freeLeaf a s)
  | .parent a s l r, ptr =>
    if ptr < r.blockAddress then
      match l.free ptr with
      | (.error e, l') => (.error e, .parent a s l' r)
      | (.ok freed, l') =>
        if l'.isFreeLeaf ∧ r.isFreeLeaf then
          (.ok freed, .freeLeaf a s)
        else
          (.ok freed, .parent a s l' r)
    else
      match r.free ptr with
      | (.error e, r') => (.error e, .parent a s l r')
      | (.ok freed, r') =>
        if l.isFreeLeaf ∧ r'.isFreeLeaf then
          (.ok freed, .freeLeaf a s)
        else
          (.ok freed, .parent a s l r')
  | .allocatedLeaf a s, ptr =>
    if a = ptr then
      (.ok s, .freeLeaf a s)
    else
      (.error .unalignedFree, .allocatedLeaf a s)

end BlockNode

/-- The buddy allocator facade from `src/buddy_allocator.rs`.  The const
generics `M` (heap size) and `B` (zero-order block size) are type-level
parameters; `base` models the address of the embedded `memory` buffer, and
`upperMemoryBound` and `totalFree` are the homonymous fields.  The arena
bytes themselves carry no information the claims need and are omitted. -/
structure BuddyAllocator (M B : Nat) where
  base : Nat
  allocTable : BlockNode
  upperMemoryBound : Nat
  totalFree : Nat
deriving DecidableEq, Repr

namespace BuddyAllocator

variable {M B : Nat}

/-- `BuddyAllocator::new` / `init_pinned`: root tree node is a free leaf over
the whole arena, `upper_memory_bound = base + M`, `total_free = M`. -/
def new (M B : Nat) (base : Nat) : BuddyAllocator M B :=
  { base := base
    allocTable := BlockNode.new M base
    upperMemoryBound := base + M
    totalFree := M }

/-- `BuddyAllocator::alloc_bytes`: reject size 0 and sizes above
`total_free`, otherwise delegate to the tree and subtract the committed
bytes on success. -/
def allocBytes (st : BuddyAllocator M B) (size : Nat) :
    Except AllocError Nat × BuddyAllocator M B :=
  if h : size = 0 then
    (.error .zeroAllocation, st)
  else if size > st.totalFree then
    (.error .outOfMemory, st)
  else
    match st.allocTable.alloc B size (Nat.pos_of_ne_zero h) with
    | (some res, table') =>
      (.ok res.1,
       { st with allocTable := table', totalFree := st.totalFree - res.2 })
    | (none, table') =>
      (.error .outOfMemory, { st with allocTable := table' })

/-- `BuddyAllocator::free_nonnull`: bounds-check the pointer against the
arena, delegate to the tree, and add the freed bytes on success. -/
def freeNonnull (st : BuddyAllocator M B) (ptr : Nat) :
    Except FreeError Unit × BuddyAllocator M B :=
  if ptr ≥ st.upperMemoryBound ∨ ptr < st.base then
    (.error .freeOutOfBounds, st)
  else
    match st.allocTable.free ptr with
    | (.ok freed, table') =>
      (.ok (),
       { st with allocTable := table', totalFree := st.totalFree + freed })
    | (.error e, table') =>
      (.error e, { st with allocTable := table' })

/-- `BuddyAllocator::free`: a null pointer (modelled as address 0) is
`NullPtrFree`; otherwise delegate to `free_nonnull`. -/
def free (st : BuddyAllocator M B) (ptr : Nat) :
    Except FreeError Unit × BuddyAllocator M B :=
  if ptr = 0 then
    (.error .nullPtrFree, st)
  else
    st.freeNonnull ptr

/-- `BuddyAllocator::alloc::<T>`: delegates to `alloc_bytes(size_of::<T>())`;
the type `T` only contributes its size. -/
def allocT (st : BuddyAllocator M B) (sizeOfT : Nat) :
    Except AllocError Nat × BuddyAllocator M B :=
  st.allocBytes sizeOfT

/-- `BuddyAllocator::heap_size`. -/
def heapSize (_ : BuddyAllocator M B) : Nat := M

/-- `BuddyAllocator::total_allocated` (`heap_size - total_free`). -/
def totalAllocated (st : BuddyAllocator M B) : Nat :=
  st.heapSize - st.totalFree

end BuddyAllocator

/-! ## Semantic functions over the tree

These observers are not part of the Rust code; they measure the tree so the
spec's invariants can be stated. -/

namespace BlockNode

/-- Sum of the sizes of all `FreeLeaf` nodes (spec I4). -/
def freeSum : BlockNode → Nat
  | .freeLeaf _ s => s
  | .parent _ _ l r => freeSum l + freeSum r
  | .allocatedLeaf _ _ => 0

/-- The `(block_address, size)` pairs of all `AllocatedLeaf` nodes, in tree
(address) order. -/
def allocatedBlocks : BlockNode → List (Nat × Nat)
  | .freeLeaf _ _ => []
  | .parent _ _ l r => allocatedBlocks l ++ allocatedBlocks r
  | .allocatedLeaf a s => [(a, s)]

/-- Total number of nodes of the tree.  Every node except the root lives in
one cell of the node-pool slab, so the slab holds `nodeCount t - 1` cells. -/
def nodeCount : BlockNode → Nat
  | .freeLeaf _ _ => 1
  | .parent _ _ l r => 1 + nodeCount l + nodeCount r
  | .allocatedLeaf _ _ => 1

/-- Structural well-formedness of a tree over zero-order size `B` (spec I1,
I2): every node's size is `B` times a power of two, and a parent of size `s`
(necessarily `s ≠ B`, since zero-order blocks are never split) has children
of size `s / 2` at addresses `a` and `a + s / 2`. -/
def wf (B : Nat) : BlockNode → Prop
  | .freeLeaf _ s => ∃ k, s = B * 2 ^ k
  | .allocatedLeaf _ s => ∃ k, s = B * 2 ^ k
  | .parent a s l r =>
    (∃ k, s = B * 2 ^ k) ∧ s ≠ B ∧
    l.blockAddress = a ∧ l.size = s / 2 ∧
    r.blockAddress = a + s / 2 ∧ r.size = s / 2 ∧
    wf B l ∧ wf B r

/-- Eager coalescing (spec I3): no `Parent` has two `FreeLeaf` children. -/
def coalesced : BlockNode → Prop
  | .freeLeaf _ _ => True
  | .allocatedLeaf _ _ => True
  | .parent _ _ l r =>
    ¬(l.isFreeLeaf = true ∧ r.isFreeLeaf = true) ∧ coalesced l ∧ coalesced r

end BlockNode

/-- Two blocks, each given as `(address, size)`, occupy disjoint byte
ranges. -/
def blockDisjoint (x y : Nat × Nat) : Prop :=
  x.1 + x.2 ≤ y.1 ∨ y.1 + y.2 ≤ x.1

/-- The compile-time constraints on the const generics, from the
`const_assert` bounds on `impl BuddyAllocator`: `B` is a power of two, and
`M` is a power-of-two multiple of `B` (`M` a power of two with `M % B == 0`). -/
def Params (M B : Nat) : Prop :=
  (∃ i, B = 2 ^ i) ∧ (∃ k, M = B * 2 ^ k)

/-- Capacity (in cells) of the node-pool slab: the `proto_allocator` field is
a `FixedSizeAllocator` with `M / B` cells (`ProtoAllocator<{M / B}>` in
`src/buddy_allocator.rs`). -/
def slabCapacity (M B : Nat) : Nat := M / B

/-- The state invariant of the allocator (spec I1-I4 plus the bookkeeping
fields): the root covers `[base, base + M)`, `upper_memory_bound = base + M`,
the tree is well-formed and eagerly coalesced, and `total_free` is the sum of
the free-leaf sizes.  `0 < base` models that the arena, a field of a live
Rust object, never sits at address null. -/
def Inv (M B : Nat) (st : BuddyAllocator M B) : Prop :=
  0 < st.base ∧
  st.allocTable.blockAddress = st.base ∧
  st.allocTable.size = M ∧
  st.upperMemoryBound = st.base + M ∧
  st.allocTable.wf B ∧
  st.allocTable.coalesced ∧
  st.totalFree = st.allocTable.freeSum

/-- The full invariant tying a reachable state to its live-pointer list: the
state invariant holds, the live list has no duplicates, and the live pointers
are exactly the addresses of the `AllocatedLeaf` nodes. -/
def SInv (M B base : Nat) (st : BuddyAllocator M B) (L : List Nat) : Prop :=
  st.base = base ∧ Inv M B st ∧ L.Nodup ∧
  ∀ q, q ∈ L ↔ ∃ b, (q, b) ∈ st.allocTable.allocatedBlocks

/-- Reachable states of an allocator with arena base `base`, together with
the list of live pointers (returned by a successful `alloc_bytes` and not yet
successfully freed). -/
inductive Reach (M B base : Nat) : BuddyAllocator M B → List Nat → Prop
  | init : Reach M B base (BuddyAllocator.new M B base) []
  | allocOk {st L s p st'} : Reach M B base st L →
      st.allocBytes s = (.ok p, st') → Reach M B base st' (p :: L)
  | allocErr {st L s e st'} : Reach M B base st L →
      st.allocBytes s = (.error e, st') → Reach M B base st' L
  | freeOk {st L p st'} : Reach M B base st L →
      st.free p = (.ok (), st') → Reach M B base st' (L.erase p)
  | freeErr {st L p e st'} : Reach M B base st L →
      st.free p = (.error e, st') → Reach M B base st' L

/-! ## Lemmas about `allocDown` -/

namespace BlockNode

/-- Halving a well-formed non-zero-order size: the half is again `B` times a
power of two, the size is exactly twice its half, and the half is at least
`B`. -/
theorem half_pow {B s k : Nat} (_hB : 0 < B) (hk : s = B * 2 ^ k)
    (hne : s ≠ B) :
    ∃ j, s / 2 = B * 2 ^ j ∧ s = 2 * (s / 2) ∧ B ≤ s / 2 := by
  cases k with
  | zero => rw [pow_zero, mul_one] at hk; exact absurd hk hne
  | succ j =>
    have h2 : s = 2 * (B * 2 ^ j) := by rw [hk, pow_succ]; ring
    have hBle : B ≤ B * 2 ^ j :=
      Nat.le_mul_of_pos_right B (Nat.pos_pow_of_pos j (by omega))
    exact ⟨j, by omega, by omega, by omega⟩

theorem allocDown_addr_size (B a s als : Nat) (h : 0 < als) :
    (allocDown B a s als h).1.blockAddress = a ∧
    (allocDown B a s als h).1.size = s := by
  induction s, als, h using allocDown.induct B a with
  | case1 s als h half hcond =>
    rw [allocDown, if_pos hcond]
    exact ⟨rfl, rfl⟩
  | case2 s als h half hcond ih =>
    rw [allocDown, if_neg hcond]
    exact ⟨rfl, rfl⟩

theorem allocDown_not_freeLeaf_coalesced (B a s als : Nat) (h : 0 < als) :
    (allocDown B a s als h).1.isFreeLeaf = false ∧
    (allocDown B a s als h).1.coalesced := by
  induction s, als, h using allocDown.induct B a with
  | case1 s als h half hcond =>
    rw [allocDown, if_pos hcond]
    exact ⟨rfl, trivial⟩
  | case2 s als h half hcond ih =>
    rw [allocDown, if_neg hcond]
    refine ⟨rfl, ?_, ih.2, trivial⟩
    simp [ih.1]

theorem allocDown_allocatedBlocks (B a s als : Nat) (h : 0 < als) :
    (allocDown B a s als h).1.allocatedBlocks = [(a, (allocDown B a s als h).2)] := by
  induction s, als, h using allocDown.induct B a with
  | case1 s als h half hcond =>
    rw [allocDown, if_pos hcond]
    rfl
  | case2 s als h half hcond ih =>
    rw [allocDown, if_neg hcond]
    simp [allocatedBlocks, ih]

/-- The combined behaviour of `alloc_down` on a well-formed block size:
well-formedness of the produced subtree, conservation of the free bytes, and
the committed size `b` satisfying `max(als, B) ≤ b < 2 * max(als, B)`,
`b = B` when `als ≤ B`, and `b = B * 2 ^ j` for some `j`. -/
theorem allocDown_main {B : Nat} (hB : 0 < B) :
    ∀ s k, s = B * 2 ^ k → ∀ (a als : Nat) (h : 0 < als), als ≤ s →
    (allocDown B a s als h).1.wf B ∧
    (allocDown B a s als h).1.freeSum + (allocDown B a s als h).2 = s ∧
    (∃ j, (allocDown B a s als h).2 = B * 2 ^ j) ∧
    max als B ≤ (allocDown B a s als h).2 ∧
    (allocDown B a s als h).2 < 2 * max als B ∧
    (als ≤ B → (allocDown B a s als h).2 = B) := by
  intro s
  induction s using Nat.strong_induction_on with
  | _ s ih =>
    intro k hk a als h hle
    rw [allocDown]
    by_cases hcond : als > s / 2 ∨ s = B
    · rw [if_pos hcond]
      by_cases heq : s = B
      · refine ⟨⟨k, hk⟩, by simp [freeSum], ⟨k, hk⟩, ?_⟩
        clear hk hcond
        simp only
        omega
      · have hgt : als > s / 2 := hcond.resolve_right heq
        obtain ⟨j, hj, htwice, hBhalf⟩ := half_pow hB hk heq
        refine ⟨⟨k, hk⟩, by simp [freeSum], ⟨k, hk⟩, ?_⟩
        clear hk hj
        simp only
        omega
    · rw [if_neg hcond]
      push_neg at hcond
      obtain ⟨j, hj, htwice, hBhalf⟩ := half_pow hB hk hcond.2
      have hlt : s / 2 < s := by omega
      obtain ⟨hwfrec, hfsrec, hpowrec, hboundsrec⟩ :=
        ih (s / 2) hlt j hj a als h hcond.1
      refine ⟨?_, ?_, hpowrec, hboundsrec⟩
      · exact ⟨⟨k, hk⟩, hcond.2,
          (allocDown_addr_size B a (s / 2) als h).1,
          (allocDown_addr_size B a (s / 2) als h).2,
          rfl, rfl, hwfrec, ⟨j, hj⟩⟩
      · simp only [freeSum]
        omega

/-! ## Lemmas about `BlockNode.alloc` -/

theorem alloc_addr_size (B : Nat) (t : BlockNode) (als : Nat) (h : 0 < als) :
    (t.alloc B als h).2.blockAddress = t.blockAddress ∧
    (t.alloc B als h).2.size = t.size := by
  induction t with
  | freeLeaf a s =>
    simp only [alloc]
    by_cases hlt : s < als
    · rw [if_pos hlt]
      exact ⟨rfl, rfl⟩
    · rw [if_neg hlt]
      exact ⟨(allocDown_addr_size B a s als h).1,
        (allocDown_addr_size B a s als h).2⟩
  | parent a s l r ihl ihr =>
    simp only [alloc]
    by_cases hle : s ≤ als
    · rw [if_pos hle]
      exact ⟨rfl, rfl⟩
    · rw [if_neg hle]
      rcases hl : l.alloc B als h with ⟨_ | vl, l'⟩
      · rcases hr : r.alloc B als h with ⟨_ | vr, r'⟩
        · exact ⟨rfl, rfl⟩
        · exact ⟨rfl, rfl⟩
      · exact ⟨rfl, rfl⟩
  | allocatedLeaf a s =>
    exact ⟨rfl, rfl⟩

/-- A missed allocation leaves the tree exactly as it was. -/
theorem alloc_none (B : Nat) : ∀ (t : BlockNode) (als : Nat) (h : 0 < als)
    (t' : BlockNode), t.alloc B als h = (none, t') → t' = t := by
  intro t
  induction t with
  | freeLeaf a s =>
    intro als h t' heq
    simp only [alloc] at heq
    by_cases hlt : s < als
    · rw [if_pos hlt] at heq
      simp only [Prod.mk.injEq] at heq
      exact heq.2.symm
    · rw [if_neg hlt] at heq
      simp at heq
  | parent a s l r ihl ihr =>
    intro als h t' heq
    simp only [alloc] at heq
    by_cases hle : s ≤ als
    · rw [if_pos hle] at heq
      simp only [Prod.mk.injEq] at heq
      exact heq.2.symm
    · rw [if_neg hle] at heq
      rcases hl : l.alloc B als h with ⟨_ | vl, l'⟩ <;> rw [hl] at heq
      · rcases hr : r.alloc B als h with ⟨_ | vr, r'⟩ <;> rw [hr] at heq
        · simp only [Prod.mk.injEq] at heq
          rw [← heq.2, ihl als h l' hl, ihr als h r' hr]
        · simp at heq
      · simp at heq
  | allocatedLeaf a s =>
    intro als h t' heq
    simp only [alloc, Prod.mk.injEq] at heq
    exact heq.2.symm

/-- The combined behaviour of a successful `BlockNode::alloc`: the new tree
is well-formed and coalesced, the free bytes drop by exactly the committed
size `b`, exactly one new `AllocatedLeaf` `(p, b)` is inserted, the result is
not a free leaf, and `b` obeys the buddy size bounds. -/
theorem alloc_some {B : Nat} (hB : 0 < B) :
    ∀ (t : BlockNode), t.wf B → ∀ (als : Nat) (h : 0 < als) (p b : Nat)
    (t' : BlockNode), t.alloc B als h = (some (p, b), t') →
    t'.wf B ∧
    (t.coalesced → t'.coalesced) ∧
    t'.freeSum + b = t.freeSum ∧
    (∃ X Y, t.allocatedBlocks = X ++ Y ∧
      t'.allocatedBlocks = X ++ (p, b) :: Y) ∧
    (∃ j, b = B * 2 ^ j) ∧
    max als B ≤ b ∧ b < 2 * max als B ∧ (als ≤ B → b = B) ∧
    t'.isFreeLeaf = false := by
  intro t
  induction t with
  | freeLeaf a s =>
    intro hwf als h p b t' heq
    obtain ⟨k, hk⟩ := hwf
    simp only [alloc] at heq
    by_cases hlt : s < als
    · rw [if_pos hlt] at heq
      simp at heq
    · rw [if_neg hlt] at heq
      simp only [Prod.mk.injEq, Option.some.injEq] at heq
      obtain ⟨⟨hp, hb⟩, ht'⟩ := heq
      obtain ⟨hwfd, hfsd, hpowd, hlo, hhi, hBd⟩ :=
        allocDown_main hB s k hk a als h (by omega)
      subst hp hb
      rw [← ht']
      refine ⟨hwfd, fun _ => (allocDown_not_freeLeaf_coalesced B a s als h).2,
        by simpa [freeSum] using hfsd,
        ⟨[], [], by simp [allocatedBlocks],
          by simpa using allocDown_allocatedBlocks B a s als h⟩,
        hpowd, hlo, hhi, hBd,
        (allocDown_not_freeLeaf_coalesced B a s als h).1⟩
  | parent a s l r ihl ihr =>
    intro hwf als h p b t' heq
    obtain ⟨hks, hsB, hladdr, hlsize, hraddr, hrsize, hwfl, hwfr⟩ := hwf
    simp only [alloc] at heq
    by_cases hle : s ≤ als
    · rw [if_pos hle] at heq
      simp at heq
    · rw [if_neg hle] at heq
      rcases hl : l.alloc B als h with ⟨_ | vl, l'⟩ <;> rw [hl] at heq
      · -- left miss, so the left subtree is unchanged
        have hleq : l' = l := alloc_none B l als h l' hl
        subst hleq
        rcases hr : r.alloc B als h with ⟨_ | vr, r'⟩ <;> rw [hr] at heq
        · simp at heq
        · simp only [Prod.mk.injEq, Option.some.injEq] at heq
          obtain ⟨hvr, ht'⟩ := heq
          subst hvr
          obtain ⟨hwf', hco', hfs', ⟨X, Y, hXY, hXY'⟩, hpow', hlo, hhi, himp, hnf⟩ :=
            ihr hwfr als h p b r' hr
          have haddr' : r'.blockAddress = r.blockAddress := by
            have hx := (alloc_addr_size B r als h).1
            rw [hr] at hx
            exact hx
          have hsize' : r'.size = r.size := by
            have hx := (alloc_addr_size B r als h).2
            rw [hr] at hx
            exact hx
          rw [← ht']
          refine ⟨⟨hks, hsB, hladdr, hlsize, haddr'.trans hraddr,
              hsize'.trans hrsize, hwfl, hwf'⟩,
            ?_, ?_, ⟨l'.allocatedBlocks ++ X, Y, ?_, ?_⟩,
            hpow', hlo, hhi, himp, rfl⟩
          · rintro ⟨hnb, hcol, hcor⟩
            exact ⟨by simp [hnf], hcol, hco' hcor⟩
          · simp only [freeSum]
            omega
          · simp [allocatedBlocks, hXY]
          · simp [allocatedBlocks, hXY']
      · simp only [Prod.mk.injEq, Option.some.injEq] at heq
        obtain ⟨hvl, ht'⟩ := heq
        subst hvl
        obtain ⟨hwf', hco', hfs', ⟨X, Y, hXY, hXY'⟩, hpow', hlo, hhi, himp, hnf⟩ :=
          ihl hwfl als h p b l' hl
        have haddr' : l'.blockAddress = l.blockAddress := by
          have hx := (alloc_addr_size B l als h).1
          rw [hl] at hx
          exact hx
        have hsize' : l'.size = l.size := by
          have hx := (alloc_addr_size B l als h).2
          rw [hl] at hx
          exact hx
        rw [← ht']
        refine ⟨⟨hks, hsB, haddr'.trans hladdr, hsize'.trans hlsize,
            hraddr, hrsize, hwf', hwfr⟩,
          ?_, ?_, ⟨X, Y ++ r.allocatedBlocks, ?_, ?_⟩,
          hpow', hlo, hhi, himp, rfl⟩
        · rintro ⟨hnb, hcol, hcor⟩
          exact ⟨by simp [hnf], hco' hcol, hcor⟩
        · simp only [freeSum]
          omega
        · simp [allocatedBlocks, hXY]
        · simp [allocatedBlocks, hXY']
  | allocatedLeaf a s =>
    intro hwf als h p b t' heq
    simp only [alloc] at heq
    simp at heq

/-! ## Structural lemmas from well-formedness -/

/-- The tree's free bytes never exceed its span. -/
theorem freeSum_le_size {B : Nat} (hB : 0 < B) :
    ∀ (t : BlockNode), t.wf B → t.freeSum ≤ t.size := by
  intro t
  induction t with
  | freeLeaf a s => intro _; exact Nat.le_refl s
  | parent a s l r ihl ihr =>
    rintro ⟨⟨k, hk⟩, hsB, hladdr, hlsize, hraddr, hrsize, hwfl, hwfr⟩
    obtain ⟨j, hj, htwice, hBhalf⟩ := half_pow hB hk hsB
    have h1 := ihl hwfl
    have h2 := ihr hwfr
    rw [hlsize] at h1
    rw [hrsize] at h2
    simp only [freeSum, size]
    omega
  | allocatedLeaf a s => intro _; exact Nat.zero_le s

/-- Every allocated block of a well-formed tree lies inside the tree's span
and is at least `B` bytes long. -/
theorem wf_blocks_mem {B : Nat} (hB : 0 < B) :
    ∀ (t : BlockNode), t.wf B → ∀ p b, (p, b) ∈ t.allocatedBlocks →
    t.blockAddress ≤ p ∧ p + b ≤ t.blockAddress + t.size ∧ B ≤ b := by
  intro t
  induction t with
  | freeLeaf a s =>
    intro _ p b hmem
    simp [allocatedBlocks] at hmem
  | parent a s l r ihl ihr =>
    rintro ⟨⟨k, hk⟩, hsB, hladdr, hlsize, hraddr, hrsize, hwfl, hwfr⟩ p b hmem
    obtain ⟨j, hj, htwice, hBhalf⟩ := half_pow hB hk hsB
    simp only [allocatedBlocks, List.mem_append] at hmem
    simp only [blockAddress, size]
    rcases hmem with hmem | hmem
    · have hres := ihl hwfl p b hmem
      rw [hladdr, hlsize] at hres
      omega
    · have hres := ihr hwfr p b hmem
      rw [hraddr, hrsize] at hres
      omega
  | allocatedLeaf a s =>
    rintro ⟨k, hk⟩ p b hmem
    simp only [allocatedBlocks, List.mem_singleton, Prod.mk.injEq] at hmem
    obtain ⟨hp, hb⟩ := hmem
    subst hp hb
    simp only [blockAddress, size]
    refine ⟨Nat.le_refl p, Nat.le_refl _, ?_⟩
    rw [hk]
    exact Nat.le_mul_of_pos_right B (Nat.pos_pow_of_pos k (by omega))

/-- The allocated blocks of a well-formed tree are pairwise disjoint byte
ranges (spec I1 restricted to `AllocatedLeaf` nodes). -/
theorem wf_blocks_pairwise {B : Nat} (hB : 0 < B) :
    ∀ (t : BlockNode), t.wf B →
    t.allocatedBlocks.Pairwise blockDisjoint := by
  intro t
  induction t with
  | freeLeaf a s => intro _; simp [allocatedBlocks]
  | parent a s l r ihl ihr =>
    rintro ⟨⟨k, hk⟩, hsB, hladdr, hlsize, hraddr, hrsize, hwfl, hwfr⟩
    simp only [allocatedBlocks]
    rw [List.pairwise_append]
    refine ⟨ihl hwfl, ihr hwfr, ?_⟩
    intro x hx y hy
    have hxm := wf_blocks_mem hB l hwfl x.1 x.2 (by simpa using hx)
    have hym := wf_blocks_mem hB r hwfr y.1 y.2 (by simpa using hy)
    rw [hladdr, hlsize] at hxm
    rw [hraddr, hrsize] at hym
    left
    omega
  | allocatedLeaf a s =>
    intro _
    simp [allocatedBlocks]

/-- An eagerly-coalesced tree with no allocated leaf is a single
`FreeLeaf`. -/
theorem coalesced_empty :
    ∀ (t : BlockNode), t.coalesced → t.allocatedBlocks = [] →
    t = .freeLeaf t.blockAddress t.size := by
  intro t
  induction t with
  | freeLeaf a s => intro _ _; rfl
  | parent a s l r ihl ihr =>
    rintro ⟨hnb, hcol, hcor⟩ hbl
    simp only [allocatedBlocks, List.append_eq_nil] at hbl
    have hl := ihl hcol hbl.1
    have hr := ihr hcor hbl.2
    exfalso
    apply hnb
    constructor
    · rw [hl]; rfl
    · rw [hr]; rfl
  | allocatedLeaf a s =>
    intro _ hbl
    simp [allocatedBlocks] at hbl

/-- A `FreeLeaf` carries no allocated blocks and its free bytes equal its
size. -/
theorem isFreeLeaf_blocks {t : BlockNode} (h : t.isFreeLeaf = true) :
    t.allocatedBlocks = [] ∧ t.freeSum = t.size := by
  cases t with
  | freeLeaf a s => exact ⟨rfl, rfl⟩
  | parent a s l r => simp [isFreeLeaf] at h
  | allocatedLeaf a s => simp [isFreeLeaf] at h

/-! ## Lemmas about `BlockNode.free` -/

theorem free_addr_size (t : BlockNode) (p : Nat) :
    (t.free p).2.blockAddress = t.blockAddress ∧
    (t.free p).2.size = t.size := by
  induction t with
  | freeLeaf a s => exact ⟨rfl, rfl⟩
  | parent a s l r ihl ihr =>
    simp only [free]
    by_cases hp : p < r.blockAddress
    · rw [if_pos hp]
      rcases hfl : l.free p with ⟨ef | fr, l'⟩
      · exact ⟨rfl, rfl⟩
      · dsimp only
        by_cases hcoal : l'.isFreeLeaf = true ∧ r.isFreeLeaf = true
        · rw [if_pos hcoal]
          exact ⟨rfl, rfl⟩
        · rw [if_neg hcoal]
          exact ⟨rfl, rfl⟩
    · rw [if_neg hp]
      rcases hfr : r.free p with ⟨ef | fr, r'⟩
      · exact ⟨rfl, rfl⟩
      · dsimp only
        by_cases hcoal : l.isFreeLeaf = true ∧ r'.isFreeLeaf = true
        · rw [if_pos hcoal]
          exact ⟨rfl, rfl⟩
        · rw [if_neg hcoal]
          exact ⟨rfl, rfl⟩
  | allocatedLeaf a s =>
    simp only [free]
    by_cases ha : a = p
    · rw [if_pos ha]
      exact ⟨rfl, rfl⟩
    · rw [if_neg ha]
      exact ⟨rfl, rfl⟩

/-- A failed free leaves the tree exactly as it was, and the error is one of
the two kinds the tree can produce. -/
theorem free_error : ∀ (t : BlockNode) (p : Nat) (e : FreeError)
    (t' : BlockNode), t.free p = (.error e, t') →
    t' = t ∧ (e = .doubleFree ∨ e = .unalignedFree) := by
  intro t
  induction t with
  | freeLeaf a s =>
    intro p e t' heq
    simp only [free, Prod.mk.injEq, Except.error.injEq] at heq
    exact ⟨heq.2.symm, Or.inl heq.1.symm⟩
  | parent a s l r ihl ihr =>
    intro p e t' heq
    simp only [free] at heq
    by_cases hp : p < r.blockAddress
    · rw [if_pos hp] at heq
      rcases hfl : l.free p with ⟨ef | fr, l'⟩ <;> rw [hfl] at heq <;> dsimp only at heq
      · simp only [Prod.mk.injEq, Except.error.injEq] at heq
        obtain ⟨hee, ht'⟩ := heq
        obtain ⟨hl', he2⟩ := ihl p ef l' hfl
        subst hee
        rw [← ht', hl']
        exact ⟨rfl, he2⟩
      · by_cases hcoal : l'.isFreeLeaf = true ∧ r.isFreeLeaf = true
        · rw [if_pos hcoal] at heq
          simp at heq
        · rw [if_neg hcoal] at heq
          simp at heq
    · rw [if_neg hp] at heq
      rcases hfr : r.free p with ⟨ef | fr, r'⟩ <;> rw [hfr] at heq <;> dsimp only at heq
      · simp only [Prod.mk.injEq, Except.error.injEq] at heq
        obtain ⟨hee, ht'⟩ := heq
        obtain ⟨hr', he2⟩ := ihr p ef r' hfr
        subst hee
        rw [← ht', hr']
        exact ⟨rfl, he2⟩
      · by_cases hcoal : l.isFreeLeaf = true ∧ r'.isFreeLeaf = true
        · rw [if_pos hcoal] at heq
          simp at heq
        · rw [if_neg hcoal] at heq
          simp at heq
  | allocatedLeaf a s =>
    intro p e t' heq
    simp only [free] at heq
    by_cases ha : a = p
    · rw [if_pos ha] at heq
      simp at heq
    · rw [if_neg ha] at heq
      simp only [Prod.mk.injEq, Except.error.injEq] at heq
      exact ⟨heq.2.symm, Or.inr heq.1.symm⟩

/-- The combined behaviour of a successful `BlockNode::free`: the new tree
is well-formed and coalesced, the free bytes grow by exactly the freed size,
and exactly the `AllocatedLeaf` `(p, freed)` disappears from the allocated
blocks. -/
theorem free_ok {B : Nat} (hB : 0 < B) :
    ∀ (t : BlockNode), t.wf B → t.coalesced → ∀ (p freed : Nat)
    (t' : BlockNode), t.free p = (.ok freed, t') →
    t'.wf B ∧ t'.coalesced ∧ t'.freeSum = t.freeSum + freed ∧
    (∃ X Y, t.allocatedBlocks = X ++ (p, freed) :: Y ∧
      t'.allocatedBlocks = X ++ Y) := by
  intro t
  induction t with
  | freeLeaf a s =>
    intro _ _ p freed t' heq
    simp [free] at heq
  | parent a s l r ihl ihr =>
    rintro ⟨hks, hsB, hladdr, hlsize, hraddr, hrsize, hwfl, hwfr⟩
      ⟨hnb, hcol, hcor⟩ p freed t' heq
    obtain ⟨k, hk⟩ := hks
    obtain ⟨j, hj, htwice, hBhalf⟩ := half_pow hB hk hsB
    simp only [free] at heq
    by_cases hp : p < r.blockAddress
    · rw [if_pos hp] at heq
      rcases hfl : l.free p with ⟨ef | fr, l'⟩ <;> rw [hfl] at heq <;> dsimp only at heq
      · simp at heq
      · obtain ⟨hwf', hco', hfs', X, Y, hXY, hXY'⟩ := ihl hwfl hcol p fr l' hfl
        have haddr' : l'.blockAddress = l.blockAddress := by
          have hx := (free_addr_size l p).1
          rw [hfl] at hx
          exact hx
        have hsize' : l'.size = l.size := by
          have hx := (free_addr_size l p).2
          rw [hfl] at hx
          exact hx
        by_cases hcoal : l'.isFreeLeaf = true ∧ r.isFreeLeaf = true
        · rw [if_pos hcoal] at heq
          simp only [Prod.mk.injEq, Except.ok.injEq] at heq
          obtain ⟨hfr, ht'⟩ := heq
          subst hfr
          rw [← ht']
          obtain ⟨hbl', hfsl'⟩ := isFreeLeaf_blocks hcoal.1
          obtain ⟨hbr, hfsr⟩ := isFreeLeaf_blocks hcoal.2
          refine ⟨⟨k, hk⟩, trivial, ?_, ⟨X, Y, ?_, ?_⟩⟩
          · rw [hsize', hlsize] at hfsl'
            rw [hrsize] at hfsr
            simp only [freeSum]
            omega
          · simp [allocatedBlocks, hXY, hbr]
          · simp only [allocatedBlocks]
            rw [← hXY', hbl']
        · rw [if_neg hcoal] at heq
          simp only [Prod.mk.injEq, Except.ok.injEq] at heq
          obtain ⟨hfr, ht'⟩ := heq
          subst hfr
          rw [← ht']
          refine ⟨⟨⟨k, hk⟩, hsB, haddr'.trans hladdr, hsize'.trans hlsize,
              hraddr, hrsize, hwf', hwfr⟩,
            ⟨hcoal, hco', hcor⟩, ?_, ⟨X, Y ++ r.allocatedBlocks, ?_, ?_⟩⟩
          · simp only [freeSum]
            omega
          · simp [allocatedBlocks, hXY]
          · simp [allocatedBlocks, hXY']
    · rw [if_neg hp] at heq
      rcases hfr : r.free p with ⟨ef | fr, r'⟩ <;> rw [hfr] at heq <;> dsimp only at heq
      · simp at heq
      · obtain ⟨hwf', hco', hfs', X, Y, hXY, hXY'⟩ := ihr hwfr hcor p fr r' hfr
        have haddr' : r'.blockAddress = r.blockAddress := by
          have hx := (free_addr_size r p).1
          rw [hfr] at hx
          exact hx
        have hsize' : r'.size = r.size := by
          have hx := (free_addr_size r p).2
          rw [hfr] at hx
          exact hx
        by_cases hcoal : l.isFreeLeaf = true ∧ r'.isFreeLeaf = true
        · rw [if_pos hcoal] at heq
          simp only [Prod.mk.injEq, Except.ok.injEq] at heq
          obtain ⟨hfrq, ht'⟩ := heq
          subst hfrq
          rw [← ht']
          obtain ⟨hbl, hfsl⟩ := isFreeLeaf_blocks hcoal.1
          obtain ⟨hbr', hfsr'⟩ := isFreeLeaf_blocks hcoal.2
          refine ⟨⟨k, hk⟩, trivial, ?_, ⟨X, Y, ?_, ?_⟩⟩
          · rw [hlsize] at hfsl
            rw [hsize', hrsize] at hfsr'
            simp only [freeSum]
            omega
          · simp [allocatedBlocks, hXY, hbl]
          · simp only [allocatedBlocks]
            rw [← hXY', hbr']
        · rw [if_neg hcoal] at heq
          simp only [Prod.mk.injEq, Except.ok.injEq] at heq
          obtain ⟨hfrq, ht'⟩ := heq
          subst hfrq
          rw [← ht']
          refine ⟨⟨⟨k, hk⟩, hsB, hladdr, hlsize, haddr'.trans hraddr,
              hsize'.trans hrsize, hwfl, hwf'⟩,
            ⟨hcoal, hcol, hco'⟩, ?_, ⟨l.allocatedBlocks ++ X, Y, ?_, ?_⟩⟩
          · simp only [freeSum]
            omega
          · simp [allocatedBlocks, hXY]
          · simp [allocatedBlocks, hXY']
  | allocatedLeaf a s =>
    rintro ⟨k, hk⟩ _ p freed t' heq
    simp only [free] at heq
    by_cases ha : a = p
    · rw [if_pos ha] at heq
      simp only [Prod.mk.injEq, Except.ok.injEq] at heq
      obtain ⟨hfr, ht'⟩ := heq
      subst hfr
      rw [← ht']
      subst ha
      exact ⟨⟨k, hk⟩, trivial, by simp [freeSum],
        ⟨[], [], by simp [allocatedBlocks], by simp [allocatedBlocks]⟩⟩
    · rw [if_neg ha] at heq
      simp at heq

/-- Freeing the base address of any allocated block of a well-formed tree
succeeds and releases exactly that block's size. -/
theorem free_success {B : Nat} (hB : 0 < B) :
    ∀ (t : BlockNode), t.wf B → ∀ p b, (p, b) ∈ t.allocatedBlocks →
    ∃ t', t.free p = (.ok b, t') := by
  intro t
  induction t with
  | freeLeaf a s =>
    intro _ p b hmem
    simp [allocatedBlocks] at hmem
  | parent a s l r ihl ihr =>
    rintro ⟨⟨k, hk⟩, hsB, hladdr, hlsize, hraddr, hrsize, hwfl, hwfr⟩ p b hmem
    obtain ⟨j, hj, htwice, hBhalf⟩ := half_pow hB hk hsB
    simp only [allocatedBlocks, List.mem_append] at hmem
    simp only [free]
    rcases hmem with hmem | hmem
    · have hcont := wf_blocks_mem hB l hwfl p b hmem
      rw [hladdr, hlsize] at hcont
      have hp : p < r.blockAddress := by
        rw [hraddr]
        omega
      rw [if_pos hp]
      obtain ⟨l', hl'⟩ := ihl hwfl p b hmem
      rw [hl']
      dsimp only
      by_cases hcoal : l'.isFreeLeaf = true ∧ r.isFreeLeaf = true
      · rw [if_pos hcoal]
        exact ⟨_, rfl⟩
      · rw [if_neg hcoal]
        exact ⟨_, rfl⟩
    · have hcont := wf_blocks_mem hB r hwfr p b hmem
      rw [hraddr, hrsize] at hcont
      have hp : ¬(p < r.blockAddress) := by
        rw [hraddr]
        omega
      rw [if_neg hp]
      obtain ⟨r', hr'⟩ := ihr hwfr p b hmem
      rw [hr']
      dsimp only
      by_cases hcoal : l.isFreeLeaf = true ∧ r'.isFreeLeaf = true
      · rw [if_pos hcoal]
        exact ⟨_, rfl⟩
      · rw [if_neg hcoal]
        exact ⟨_, rfl⟩
  | allocatedLeaf a s =>
    intro _ p b hmem
    simp only [allocatedBlocks, List.mem_singleton, Prod.mk.injEq] at hmem
    obtain ⟨hp, hb⟩ := hmem
    subst hp hb
    simp only [free, if_pos rfl]
    exact ⟨_, rfl⟩

end BlockNode

/-! ## Facade-level lemmas -/

open BlockNode

/-- Two distinct entries of the allocated-blocks list never share a base
address. -/
theorem blocks_addr_unique {B : Nat} (hB : 0 < B) {t : BlockNode}
    (hwf : t.wf B) {X Y : List (Nat × Nat)} {p b b' : Nat}
    (hsplit : t.allocatedBlocks = X ++ (p, b) :: Y)
    (hmem : (p, b') ∈ X ++ Y) : False := by
  have hpw := wf_blocks_pairwise hB t hwf
  rw [hsplit] at hpw
  have hbpos : B ≤ b := by
    have := wf_blocks_mem hB t hwf p b (by rw [hsplit]; simp)
    exact this.2.2
  have hbpos' : B ≤ b' := by
    have hmem2 : (p, b') ∈ t.allocatedBlocks := by
      rw [hsplit]
      rcases List.mem_append.mp hmem with hm | hm
      · exact List.mem_append.mpr (Or.inl hm)
      · exact List.mem_append.mpr (Or.inr (List.mem_cons_of_mem _ hm))
    exact (wf_blocks_mem hB t hwf p b' hmem2).2.2
  rw [List.pairwise_append] at hpw
  rcases List.mem_append.mp hmem with hm | hm
  · have hrel := hpw.2.2 (p, b') hm (p, b) (by simp)
    simp only [blockDisjoint] at hrel
    omega
  · have hrel := (List.pairwise_cons.mp hpw.2.1).1 (p, b') hm
    simp only [blockDisjoint] at hrel
    omega

theorem inv_new {M B base : Nat} (_hB : 0 < B) (hM : ∃ k, M = B * 2 ^ k)
    (hbase : 0 < base) : Inv M B (BuddyAllocator.new M B base) :=
  ⟨hbase, rfl, rfl, rfl, hM, trivial, rfl⟩

/-- `alloc_bytes(0)` fails with `ZeroAllocation` and leaves the state
untouched. -/
theorem allocBytes_zero {M B : Nat} (st : BuddyAllocator M B) :
    st.allocBytes 0 = (.error .zeroAllocation, st) := rfl

/-- `alloc_bytes(s)` with `s` above `total_free` fails fast with
`OutOfMemory` and leaves the state untouched. -/
theorem allocBytes_oom {M B : Nat} (st : BuddyAllocator M B) (s : Nat)
    (h0 : s ≠ 0) (h : s > st.totalFree) :
    st.allocBytes s = (.error .outOfMemory, st) := by
  unfold BuddyAllocator.allocBytes
  rw [dif_neg h0, if_pos h]

/-- A failed `alloc_bytes` leaves the allocator state exactly as it was. -/
theorem allocBytes_error {M B : Nat} (st : BuddyAllocator M B)
    (s : Nat) (e : AllocError) (st' : BuddyAllocator M B)
    (heq : st.allocBytes s = (.error e, st')) : st' = st := by
  unfold BuddyAllocator.allocBytes at heq
  by_cases hs : s = 0
  · rw [dif_pos hs] at heq
    simp only [Prod.mk.injEq] at heq
    exact heq.2.symm
  · rw [dif_neg hs] at heq
    by_cases hgt : s > st.totalFree
    · rw [if_pos hgt] at heq
      simp only [Prod.mk.injEq] at heq
      exact heq.2.symm
    · rw [if_neg hgt] at heq
      rcases halloc : st.allocTable.alloc B s (Nat.pos_of_ne_zero hs)
        with ⟨_ | v, table'⟩ <;> rw [halloc] at heq <;> dsimp only at heq
      · simp only [Prod.mk.injEq] at heq
        have ht : table' = st.allocTable :=
          alloc_none B st.allocTable s (Nat.pos_of_ne_zero hs) table' halloc
        rw [← heq.2, ht]
      · simp at heq

/-- The combined behaviour of a successful `alloc_bytes`: the invariant is
preserved, `base` and `upper_memory_bound` are unchanged, the request was
positive, and `total_free` drops by the size `b` of the single new
`AllocatedLeaf` `(p, b)`, with `b` obeying the buddy size bounds. -/
theorem allocBytes_ok {M B : Nat} (hB : 0 < B) (st : BuddyAllocator M B)
    (hinv : Inv M B st) (s p : Nat) (st' : BuddyAllocator M B)
    (heq : st.allocBytes s = (.ok p, st')) :
    Inv M B st' ∧ st'.base = st.base ∧
    st'.upperMemoryBound = st.upperMemoryBound ∧ 0 < s ∧
    ∃ b, st.totalFree = st'.totalFree + b ∧
      (∃ X Y, st.allocTable.allocatedBlocks = X ++ Y ∧
        st'.allocTable.allocatedBlocks = X ++ (p, b) :: Y) ∧
      (∃ j, b = B * 2 ^ j) ∧
      max s B ≤ b ∧ b < 2 * max s B ∧ (s ≤ B → b = B) := by
  obtain ⟨hbase, haddr, hsize, hupper, hwf, hco, hacct⟩ := hinv
  unfold BuddyAllocator.allocBytes at heq
  by_cases hs : s = 0
  · rw [dif_pos hs] at heq
    simp at heq
  · rw [dif_neg hs] at heq
    by_cases hgt : s > st.totalFree
    · rw [if_pos hgt] at heq
      simp at heq
    · rw [if_neg hgt] at heq
      rcases halloc : st.allocTable.alloc B s (Nat.pos_of_ne_zero hs)
        with ⟨_ | v, table'⟩ <;> rw [halloc] at heq <;> dsimp only at heq
      · simp at heq
      · rcases v with ⟨pv, bv⟩
        simp only [Prod.mk.injEq, Except.ok.injEq] at heq
        obtain ⟨hp, hst'⟩ := heq
        subst hp
        obtain ⟨hwf', hco', hfs', hins, hpow, hlo, hhi, himp, hnf⟩ :=
          alloc_some hB st.allocTable hwf s (Nat.pos_of_ne_zero hs)
            pv bv table' halloc
        have haddr' : table'.blockAddress = st.allocTable.blockAddress := by
          have hx := (alloc_addr_size B st.allocTable s (Nat.pos_of_ne_zero hs)).1
          rw [halloc] at hx
          exact hx
        have hsize' : table'.size = st.allocTable.size := by
          have hx := (alloc_addr_size B st.allocTable s (Nat.pos_of_ne_zero hs)).2
          rw [halloc] at hx
          exact hx
        have hble : bv ≤ st.totalFree := by
          rw [hacct]
          omega
        rw [← hst']
        refine ⟨⟨hbase, haddr'.trans haddr, hsize'.trans hsize, hupper,
            hwf', hco' hco, ?_⟩, rfl, rfl, Nat.pos_of_ne_zero hs,
          bv, by simp only; omega, hins, hpow, hlo, hhi, himp⟩
        simp only
        omega

/-- A failed `free` leaves the allocator state exactly as it was. -/
theorem freeF_error {M B : Nat} (st : BuddyAllocator M B) (p : Nat)
    (e : FreeError) (st' : BuddyAllocator M B)
    (heq : st.free p = (.error e, st')) : st' = st := by
  unfold BuddyAllocator.free BuddyAllocator.freeNonnull at heq
  by_cases hp : p = 0
  · rw [if_pos hp] at heq
    simp only [Prod.mk.injEq] at heq
    exact heq.2.symm
  · rw [if_neg hp] at heq
    by_cases hob : p ≥ st.upperMemoryBound ∨ p < st.base
    · rw [if_pos hob] at heq
      simp only [Prod.mk.injEq] at heq
      exact heq.2.symm
    · rw [if_neg hob] at heq
      rcases hfree : st.allocTable.free p with ⟨ef | fr, table'⟩ <;>
        rw [hfree] at heq <;> dsimp only at heq
      · simp only [Prod.mk.injEq] at heq
        have ht : table' = st.allocTable := (free_error _ _ _ _ hfree).1
        rw [← heq.2, ht]
      · simp at heq

/-- The combined behaviour of a successful `free`: the invariant is
preserved, `base` and `upper_memory_bound` are unchanged, and `total_free`
grows by the size of the single removed `AllocatedLeaf` at address `p`. -/
theorem freeF_ok {M B : Nat} (hB : 0 < B) (st : BuddyAllocator M B)
    (hinv : Inv M B st) (p : Nat) (st' : BuddyAllocator M B)
    (heq : st.free p = (.ok (), st')) :
    Inv M B st' ∧ st'.base = st.base ∧
    st'.upperMemoryBound = st.upperMemoryBound ∧
    ∃ freed, st'.totalFree = st.totalFree + freed ∧
      ∃ X Y, st.allocTable.allocatedBlocks = X ++ (p, freed) :: Y ∧
        st'.allocTable.allocatedBlocks = X ++ Y := by
  obtain ⟨hbase, haddr, hsize, hupper, hwf, hco, hacct⟩ := hinv
  unfold BuddyAllocator.free BuddyAllocator.freeNonnull at heq
  by_cases hp : p = 0
  · rw [if_pos hp] at heq
    simp at heq
  · rw [if_neg hp] at heq
    by_cases hob : p ≥ st.upperMemoryBound ∨ p < st.base
    · rw [if_pos hob] at heq
      simp at heq
    · rw [if_neg hob] at heq
      rcases hfree : st.allocTable.free p with ⟨ef | fr, table'⟩ <;>
        rw [hfree] at heq <;> dsimp only at heq
      · simp at heq
      · simp only [Prod.mk.injEq] at heq
        obtain ⟨-, hst'⟩ := heq
        obtain ⟨hwf', hco', hfs', X, Y, hXY, hXY'⟩ :=
          free_ok hB st.allocTable hwf hco p fr table' hfree
        have haddr' : table'.blockAddress = st.allocTable.blockAddress := by
          have hx := (free_addr_size st.allocTable p).1
          rw [hfree] at hx
          exact hx
        have hsize' : table'.size = st.allocTable.size := by
          have hx := (free_addr_size st.allocTable p).2
          rw [hfree] at hx
          exact hx
        rw [← hst']
        exact ⟨⟨hbase, haddr'.trans haddr, hsize'.trans hsize, hupper,
            hwf', hco', by simp only; omega⟩, rfl, rfl,
          fr, by simp only, X, Y, hXY, hXY'⟩

/-- Every reachable state satisfies the full invariant, and its live-pointer
list matches the `AllocatedLeaf` addresses exactly. -/
theorem reach_sinv {M B base : Nat} (hP : Params M B) (hbase : 0 < base) :
    ∀ {st : BuddyAllocator M B} {L : List Nat},
    Reach M B base st L → SInv M B base st L := by
  have hB : 0 < B := by
    obtain ⟨⟨i, hi⟩, -⟩ := hP
    subst hi
    exact Nat.pos_pow_of_pos i (by omega)
  intro st L hreach
  induction hreach with
  | init =>
    refine ⟨rfl, inv_new hB hP.2 hbase, List.nodup_nil, ?_⟩
    intro q
    simp [BuddyAllocator.new, BlockNode.new, allocatedBlocks]
  | allocOk hr heq ih =>
    obtain ⟨hbeq, hinv, hnodup, hcorr⟩ := ih
    obtain ⟨hinv', hb', hu', hspos, b, htf, ⟨X, Y, hXY, hXY'⟩,
      hpow, hlo, hhi, himp⟩ := allocBytes_ok hB _ hinv _ _ _ heq
    have hwf' := hinv'.2.2.2.2.1
    refine ⟨hb'.trans hbeq, hinv', ?_, ?_⟩
    · refine List.nodup_cons.mpr ⟨?_, hnodup⟩
      intro hmem
      obtain ⟨b', hb'mem⟩ := (hcorr _).mp hmem
      rw [hXY] at hb'mem
      exact blocks_addr_unique hB hwf' hXY' hb'mem
    · intro q
      constructor
      · intro hq
        rcases List.mem_cons.mp hq with hq | hq
        · subst hq
          exact ⟨b, by rw [hXY']; simp⟩
        · obtain ⟨b', hmem⟩ := (hcorr q).mp hq
          rw [hXY] at hmem
          refine ⟨b', ?_⟩
          rw [hXY']
          rcases List.mem_append.mp hmem with hm | hm
          · exact List.mem_append.mpr (Or.inl hm)
          · exact List.mem_append.mpr (Or.inr (List.mem_cons_of_mem _ hm))
      · rintro ⟨b'', hmem⟩
        rw [hXY'] at hmem
        rcases List.mem_append.mp hmem with hm | hm
        · refine List.mem_cons.mpr (Or.inr ((hcorr q).mpr ⟨b'', ?_⟩))
          rw [hXY]
          exact List.mem_append.mpr (Or.inl hm)
        · rcases List.mem_cons.mp hm with hqb | hm'
          · exact List.mem_cons.mpr (Or.inl (congrArg Prod.fst hqb))
          · refine List.mem_cons.mpr (Or.inr ((hcorr q).mpr ⟨b'', ?_⟩))
            rw [hXY]
            exact List.mem_append.mpr (Or.inr hm')
  | allocErr hr heq ih =>
    rwa [allocBytes_error _ _ _ _ heq]
  | @freeOk st0 L0 p st1 hr heq ih =>
    obtain ⟨hbeq, hinv, hnodup, hcorr⟩ := ih
    obtain ⟨hinv', hb', hu', freed, htf, X, Y, hXY, hXY'⟩ :=
      freeF_ok hB _ hinv _ _ heq
    have hwf := hinv.2.2.2.2.1
    refine ⟨hb'.trans hbeq, hinv', hnodup.erase _, ?_⟩
    intro q
    rw [List.Nodup.mem_erase_iff hnodup]
    constructor
    · rintro ⟨hqp, hq⟩
      obtain ⟨b', hmem⟩ := (hcorr q).mp hq
      rw [hXY] at hmem
      rw [hXY']
      rcases List.mem_append.mp hmem with hm | hm
      · exact ⟨b', List.mem_append.mpr (Or.inl hm)⟩
      · rcases List.mem_cons.mp hm with hqb | hm'
        · exact absurd (congrArg Prod.fst hqb) hqp
        · exact ⟨b', List.mem_append.mpr (Or.inr hm')⟩
    · rintro ⟨b'', hmem⟩
      rw [hXY'] at hmem
      have hqp : q ≠ p := by
        rintro rfl
        exact blocks_addr_unique hB hwf hXY hmem
      refine ⟨hqp, (hcorr q).mpr ⟨b'', ?_⟩⟩
      rw [hXY]
      rcases List.mem_append.mp hmem with hm | hm
      · exact List.mem_append.mpr (Or.inl hm)
      · exact List.mem_append.mpr (Or.inr (List.mem_cons_of_mem _ hm))
  | freeErr hr heq ih =>
    rwa [freeF_error _ _ _ _ heq]

/-! ## The claims -/

/-- A power of two lying in `[x, 2x)` is exactly `2 ^ ⌈log₂ x⌉`. -/
theorem two_pow_clog_unique {x e : Nat} (_hx : 0 < x) (h1 : x ≤ 2 ^ e)
    (h2 : 2 ^ e < 2 * x) : e = Nat.clog 2 x := by
  have hle : Nat.clog 2 x ≤ e := (Nat.le_pow_iff_clog_le (by norm_num)).mp h1
  rcases Nat.eq_zero_or_pos e with rfl | he
  · omega
  · have hsplit : 2 ^ e = 2 * 2 ^ (e - 1) := by
      conv_lhs => rw [← Nat.sub_add_cancel he]
      rw [pow_succ]
      ring
    have h3 : 2 ^ (e - 1) < x := by omega
    have := (Nat.pow_lt_iff_lt_clog (by norm_num)).mp h3
    omega

/-- C1: a successful `alloc_bytes(s)` commits exactly
`2 ^ ⌈log₂ (max s B)⌉` bytes: that amount is subtracted from `total_free`,
it is the size of the `AllocatedLeaf` created at the returned pointer, and it
satisfies `max(s, B) ≤ b < 2 * max(s, B)` with `b = B` whenever `s ≤ B`. -/
theorem C1_committed_block_size {M B : Nat} (hP : Params M B)
    (st : BuddyAllocator M B) (hinv : Inv M B st) (s p : Nat)
    (st' : BuddyAllocator M B) (heq : st.allocBytes s = (.ok p, st')) :
    ∃ b, b = st.totalFree - st'.totalFree ∧
      (p, b) ∈ st'.allocTable.allocatedBlocks ∧
      b = 2 ^ Nat.clog 2 (max s B) ∧
      max s B ≤ b ∧ b < 2 * max s B ∧ (s ≤ B → b = B) := by
  obtain ⟨⟨i, hi⟩, -⟩ := hP
  have hB : 0 < B := by
    subst hi
    exact Nat.pos_pow_of_pos i (by omega)
  obtain ⟨hinv', hb', hu', hspos, b, htf, ⟨X, Y, hXY, hXY'⟩, ⟨j, hj⟩,
    hlo, hhi, himp⟩ := allocBytes_ok hB st hinv s p st' heq
  refine ⟨b, by omega, by rw [hXY']; simp, ?_, hlo, hhi, himp⟩
  have hbpow : b = 2 ^ (i + j) := by rw [hj, hi, pow_add]
  rw [hbpow]
  congr 1
  exact two_pow_clog_unique (by omega) (hbpow ▸ hlo) (hbpow ▸ hhi)

/-- Witness for C1 at `M = 32`, `B = 8`, a fresh allocator at base 1 and a
request of 3 bytes: the committed block is the zero-order block of 8 bytes. -/
theorem C1_committed_block_size_witness :
    Params 32 8 ∧ Inv 32 8 (BuddyAllocator.new 32 8 1) ∧
    ∃ st', (BuddyAllocator.new 32 8 1).allocBytes 3 = (Except.ok 1, st') ∧
      ∃ b, b = (BuddyAllocator.new 32 8 1).totalFree - st'.totalFree ∧
        (1, b) ∈ st'.allocTable.allocatedBlocks ∧
        b = 2 ^ Nat.clog 2 (max 3 8) ∧
        max 3 8 ≤ b ∧ b < 2 * max 3 8 ∧ (3 ≤ 8 → b = 8) := by
  have hP : Params 32 8 := ⟨⟨3, rfl⟩, ⟨2, rfl⟩⟩
  have hinv : Inv 32 8 (BuddyAllocator.new 32 8 1) :=
    inv_new (by norm_num) ⟨2, rfl⟩ (by norm_num)
  have heq : (BuddyAllocator.new 32 8 1).allocBytes 3 =
      (Except.ok 1,
       { base := 1,
         allocTable := .parent 1 32
           (.parent 1 16 (.allocatedLeaf 1 8) (.freeLeaf 9 8))
           (.freeLeaf 17 16),
         upperMemoryBound := 33, totalFree := 24 }) := by
    simp [BuddyAllocator.new, BuddyAllocator.allocBytes, BlockNode.new,
      BlockNode.alloc, BlockNode.allocDown]
  exact ⟨hP, hinv, _, heq, C1_committed_block_size hP _ hinv 3 1 _ heq⟩

/-- C2: in every reachable state -- after construction and after every
completed `alloc_bytes` or `free` -- `total_free` equals the sum of the
sizes of all `FreeLeaf` nodes, `total_allocated + total_free = heap_size`,
and `total_free ≤ heap_size`. -/
theorem C2_totalFree_accounting {M B base : Nat} (hP : Params M B)
    (hbase : 0 < base) {st : BuddyAllocator M B} {L : List Nat}
    (hreach : Reach M B base st L) :
    st.totalFree = st.allocTable.freeSum ∧
    st.totalAllocated + st.totalFree = st.heapSize ∧
    st.totalFree ≤ st.heapSize := by
  have hB : 0 < B := by
    obtain ⟨⟨i, hi⟩, -⟩ := hP
    subst hi
    exact Nat.pos_pow_of_pos i (by omega)
  obtain ⟨hbeq, ⟨h0, haddr, hsize, hupper, hwf, hco, hacct⟩, hnodup, hcorr⟩ :=
    reach_sinv hP hbase hreach
  have hle : st.totalFree ≤ M := by
    have hfs := freeSum_le_size hB st.allocTable hwf
    omega
  refine ⟨hacct, ?_, hle⟩
  simp only [BuddyAllocator.totalAllocated, BuddyAllocator.heapSize]
  omega

/-- Witness for C2 at `M = 32`, `B = 8`, after one allocation from a fresh
allocator. -/
theorem C2_totalFree_accounting_witness :
    Params 32 8 ∧ 0 < 1 ∧
    ∃ st L, Reach 32 8 1 st L ∧
      (st.totalFree = st.allocTable.freeSum ∧
       st.totalAllocated + st.totalFree = st.heapSize ∧
       st.totalFree ≤ st.heapSize) := by
  have hP : Params 32 8 := ⟨⟨3, rfl⟩, ⟨2, rfl⟩⟩
  have heq : (BuddyAllocator.new 32 8 1).allocBytes 12 =
      (Except.ok 1,
       { base := 1,
         allocTable := .parent 1 32 (.allocatedLeaf 1 16) (.freeLeaf 17 16),
         upperMemoryBound := 33, totalFree := 16 }) := by
    simp [BuddyAllocator.new, BuddyAllocator.allocBytes, BlockNode.new,
      BlockNode.alloc, BlockNode.allocDown]
  have hreach := Reach.allocOk (Reach.init) heq
  exact ⟨hP, Nat.one_pos, _, _, hreach,
    C2_totalFree_accounting hP Nat.one_pos hreach⟩

/-- C3: every error return of `alloc_bytes` or `free` leaves the allocator
state (tree, `total_free`, bookkeeping fields, hence the set of live
pointers) exactly as it was before the call. -/
theorem C3_error_leaves_state_unchanged {M B : Nat}
    (st st1 st2 : BuddyAllocator M B) (s p : Nat)
    (e : AllocError) (f : FreeError) :
    (st.allocBytes s = (.error e, st1) → st1 = st) ∧
    (st.free p = (.error f, st2) → st2 = st) := by
  constructor
  · intro heq
    exact allocBytes_error st s e st1 heq
  · intro heq
    exact freeF_error st p f st2 heq

/-- Witness for C3: a zero-size allocation and a null free on a fresh
allocator, both failing and both leaving the state unchanged. -/
theorem C3_error_leaves_state_unchanged_witness :
    ((BuddyAllocator.new 32 8 1).allocBytes 0 =
      (Except.error AllocError.zeroAllocation, BuddyAllocator.new 32 8 1)) ∧
    ((BuddyAllocator.new 32 8 1).free 0 =
      (Except.error FreeError.nullPtrFree, BuddyAllocator.new 32 8 1)) ∧
    (BuddyAllocator.new 32 8 1 = BuddyAllocator.new 32 8 1) ∧
    (BuddyAllocator.new 32 8 1 = BuddyAllocator.new 32 8 1) := by
  have h := C3_error_leaves_state_unchanged (M := 32) (B := 8)
    (BuddyAllocator.new 32 8 1) (BuddyAllocator.new 32 8 1)
    (BuddyAllocator.new 32 8 1) 0 0
    AllocError.zeroAllocation FreeError.nullPtrFree
  exact ⟨rfl, rfl, h.1 rfl, h.2 rfl⟩

/-- C4: any sequence of `alloc_bytes` / `free` calls from a fresh allocator
that ends with every successfully issued pointer freed (live list empty)
leaves `total_free = heap_size = M` and the tree a single `FreeLeaf` root
spanning the whole arena: eager coalescing fully merges the tree. -/
theorem C4_all_freed_single_root {M B base : Nat} (hP : Params M B)
    (hbase : 0 < base) {st : BuddyAllocator M B}
    (hreach : Reach M B base st []) :
    st.allocTable = BlockNode.freeLeaf base M ∧ st.totalFree = M := by
  obtain ⟨hbeq, ⟨h0, haddr, hsize, hupper, hwf, hco, hacct⟩, hnodup, hcorr⟩ :=
    reach_sinv hP hbase hreach
  have hempty : st.allocTable.allocatedBlocks = [] := by
    cases hblk : st.allocTable.allocatedBlocks with
    | nil => rfl
    | cons hd tl =>
      exfalso
      have hmem : hd.1 ∈ ([] : List Nat) :=
        (hcorr hd.1).mpr ⟨hd.2, by rw [hblk]; simp⟩
      simp at hmem
  have ht := coalesced_empty st.allocTable hco hempty
  rw [haddr, hbeq, hsize] at ht
  refine ⟨ht, ?_⟩
  rw [hacct, ht]
  rfl

/-- Witness for C4: allocate 8 bytes from a fresh 32-byte allocator, free
the returned pointer; the tree coalesces back to a single root leaf. -/
theorem C4_all_freed_single_root_witness :
    Params 32 8 ∧ 0 < 1 ∧
    ∃ st, Reach 32 8 1 st [] ∧
      (st.allocTable = BlockNode.freeLeaf 1 32 ∧ st.totalFree = 32) := by
  have hP : Params 32 8 := ⟨⟨3, rfl⟩, ⟨2, rfl⟩⟩
  have heq1 : (BuddyAllocator.new 32 8 1).allocBytes 8 =
      (Except.ok 1,
       { base := 1,
         allocTable := .parent 1 32
           (.parent 1 16 (.allocatedLeaf 1 8) (.freeLeaf 9 8))
           (.freeLeaf 17 16),
         upperMemoryBound := 33, totalFree := 24 }) := by
    simp [BuddyAllocator.new, BuddyAllocator.allocBytes, BlockNode.new,
      BlockNode.alloc, BlockNode.allocDown]
  have heq2 : (⟨1, .parent 1 32
           (.parent 1 16 (.allocatedLeaf 1 8) (.freeLeaf 9 8))
           (.freeLeaf 17 16), 33, 24⟩ :
           BuddyAllocator 32 8).free 1 =
      (Except.ok (),
       { base := 1, allocTable := .freeLeaf 1 32,
         upperMemoryBound := 33, totalFree := 32 }) := by
    simp [BuddyAllocator.free, BuddyAllocator.freeNonnull, BlockNode.free,
      BlockNode.blockAddress, BlockNode.isFreeLeaf]
  have hreach : Reach 32 8 1
      { base := 1, allocTable := .freeLeaf 1 32,
        upperMemoryBound := 33, totalFree := 32 } [] := by
    have h2 := Reach.freeOk (Reach.allocOk Reach.init heq1) heq2
    simpa using h2
  exact ⟨hP, Nat.one_pos, _, hreach,
    C4_all_freed_single_root hP Nat.one_pos hreach⟩

/-- C5: if `alloc_bytes(s)` succeeds returning `p`, an immediately following
`free(p)` succeeds and restores `total_free` to its pre-allocation value. -/
theorem C5_free_after_alloc {M B : Nat} (hP : Params M B)
    (st : BuddyAllocator M B) (hinv : Inv M B st) (s p : Nat)
    (st' : BuddyAllocator M B) (heq : st.allocBytes s = (.ok p, st')) :
    ∃ st2, st'.free p = (.ok (), st2) ∧ st2.totalFree = st.totalFree := by
  have hB : 0 < B := by
    obtain ⟨⟨i, hi⟩, -⟩ := hP
    subst hi
    exact Nat.pos_pow_of_pos i (by omega)
  obtain ⟨hinv', hb', hu', hspos, b, htf, ⟨X, Y, hXY, hXY'⟩, hpow,
    hlo, hhi, himp⟩ := allocBytes_ok hB st hinv s p st' heq
  obtain ⟨h0', haddr', hsize', hupper', hwf', hco', hacct'⟩ := hinv'
  have hmem : (p, b) ∈ st'.allocTable.allocatedBlocks := by
    rw [hXY']
    simp
  obtain ⟨hple, hpub, hBb⟩ := wf_blocks_mem hB st'.allocTable hwf' p b hmem
  rw [haddr'] at hple
  rw [haddr', hsize'] at hpub
  have hp0 : p ≠ 0 := by omega
  have hob : ¬(p ≥ st'.upperMemoryBound ∨ p < st'.base) := by
    rw [hupper']
    push_neg
    omega
  obtain ⟨t2, hfree⟩ := free_success hB st'.allocTable hwf' p b hmem
  refine ⟨{ st' with allocTable := t2, totalFree := st'.totalFree + b },
    ?_, by simp only; omega⟩
  unfold BuddyAllocator.free BuddyAllocator.freeNonnull
  rw [if_neg hp0, if_neg hob, hfree]

/-- Witness for C5 at `M = 16`, `B = 8`: allocate 8 bytes, free the pointer,
`total_free` returns to 16. -/
theorem C5_free_after_alloc_witness :
    Params 16 8 ∧ Inv 16 8 (BuddyAllocator.new 16 8 1) ∧
    ∃ st', (BuddyAllocator.new 16 8 1).allocBytes 8 = (Except.ok 1, st') ∧
      ∃ st2, st'.free 1 = (Except.ok (), st2) ∧
        st2.totalFree = (BuddyAllocator.new 16 8 1).totalFree := by
  have hP : Params 16 8 := ⟨⟨3, rfl⟩, ⟨1, rfl⟩⟩
  have hinv : Inv 16 8 (BuddyAllocator.new 16 8 1) :=
    inv_new (by norm_num) ⟨1, rfl⟩ (by norm_num)
  have heq : (BuddyAllocator.new 16 8 1).allocBytes 8 =
      (Except.ok 1,
       { base := 1,
         allocTable := .parent 1 16 (.allocatedLeaf 1 8) (.freeLeaf 9 8),
         upperMemoryBound := 17, totalFree := 8 }) := by
    simp [BuddyAllocator.new, BuddyAllocator.allocBytes, BlockNode.new,
      BlockNode.alloc, BlockNode.allocDown]
  exact ⟨hP, hinv, _, heq, C5_free_after_alloc hP _ hinv 8 1 _ heq⟩

/-- C6: in every reachable state, two distinct simultaneously live pointers
denote disjoint byte ranges: distinct `AllocatedLeaf` blocks never overlap,
and every such block's address is in the live list. -/
theorem C6_live_blocks_disjoint {M B base : Nat} (hP : Params M B)
    (hbase : 0 < base) {st : BuddyAllocator M B} {L : List Nat}
    (hreach : Reach M B base st L) (p1 b1 p2 b2 : Nat)
    (h1 : (p1, b1) ∈ st.allocTable.allocatedBlocks)
    (h2 : (p2, b2) ∈ st.allocTable.allocatedBlocks)
    (hne : p1 ≠ p2) :
    p1 ∈ L ∧ p2 ∈ L ∧ (p1 + b1 ≤ p2 ∨ p2 + b2 ≤ p1) := by
  have hB : 0 < B := by
    obtain ⟨⟨i, hi⟩, -⟩ := hP
    subst hi
    exact Nat.pos_pow_of_pos i (by omega)
  obtain ⟨hbeq, ⟨h0, haddr, hsize, hupper, hwf, hco, hacct⟩, hnodup, hcorr⟩ :=
    reach_sinv hP hbase hreach
  have hpw := wf_blocks_pairwise hB st.allocTable hwf
  have hsym : Symmetric blockDisjoint := by
    intro x y hxy
    rcases hxy with h | h
    · exact Or.inr h
    · exact Or.inl h
  refine ⟨(hcorr p1).mpr ⟨b1, h1⟩, (hcorr p2).mpr ⟨b2, h2⟩, ?_⟩
  exact List.Pairwise.forall hsym hpw h1 h2
    (fun hcontra => hne (congrArg Prod.fst hcontra))

/-- Witness for C6: two live 8-byte blocks at addresses 1 and 9 after two
allocations; their ranges are disjoint. -/
theorem C6_live_blocks_disjoint_witness :
    Params 32 8 ∧ 0 < 1 ∧
    ∃ st L, Reach 32 8 1 st L ∧
      (1, 8) ∈ st.allocTable.allocatedBlocks ∧
      (9, 8) ∈ st.allocTable.allocatedBlocks ∧
      (1 ∈ L ∧ 9 ∈ L ∧ (1 + 8 ≤ 9 ∨ 9 + 8 ≤ 1)) := by
  have hP : Params 32 8 := ⟨⟨3, rfl⟩, ⟨2, rfl⟩⟩
  have heq1 : (BuddyAllocator.new 32 8 1).allocBytes 8 =
      (Except.ok 1,
       { base := 1,
         allocTable := .parent 1 32
           (.parent 1 16 (.allocatedLeaf 1 8) (.freeLeaf 9 8))
           (.freeLeaf 17 16),
         upperMemoryBound := 33, totalFree := 24 }) := by
    simp [BuddyAllocator.new, BuddyAllocator.allocBytes, BlockNode.new,
      BlockNode.alloc, BlockNode.allocDown]
  have heq2 : (⟨1, .parent 1 32
           (.parent 1 16 (.allocatedLeaf 1 8) (.freeLeaf 9 8))
           (.freeLeaf 17 16), 33, 24⟩ :
           BuddyAllocator 32 8).allocBytes 8 =
      (Except.ok 9,
       { base := 1,
         allocTable := .parent 1 32
           (.parent 1 16 (.allocatedLeaf 1 8) (.allocatedLeaf 9 8))
           (.freeLeaf 17 16),
         upperMemoryBound := 33, totalFree := 16 }) := by
    simp [BuddyAllocator.allocBytes, BlockNode.alloc, BlockNode.allocDown]
  have hreach := Reach.allocOk (Reach.allocOk Reach.init heq1) heq2
  have h1 : ((1 : Nat), (8 : Nat)) ∈
      (BlockNode.parent 1 32
        (.parent 1 16 (.allocatedLeaf 1 8) (.allocatedLeaf 9 8))
        (.freeLeaf 17 16)).allocatedBlocks := by decide
  have h2 : ((9 : Nat), (8 : Nat)) ∈
      (BlockNode.parent 1 32
        (.parent 1 16 (.allocatedLeaf 1 8) (.allocatedLeaf 9 8))
        (.freeLeaf 17 16)).allocatedBlocks := by decide
  obtain ⟨hm1, hm2, hdis⟩ := C6_live_blocks_disjoint hP Nat.one_pos hreach
    1 8 9 8 h1 h2 (by decide)
  exact ⟨hP, Nat.one_pos, _, _, hreach, h1, h2, hm1, hm2, hdis⟩

/-- C7: `free` returns `NullPtrFree` exactly for the null pointer, and
`FreeOutOfBounds` for every non-null pointer outside `[base, base + M)`; in
both cases the state is returned unchanged. -/
theorem C7_free_null_and_bounds {M B : Nat} (st : BuddyAllocator M B)
    (hinv : Inv M B st) (p : Nat) :
    st.free 0 = (.error .nullPtrFree, st) ∧
    (p ≠ 0 → p < st.base ∨ p ≥ st.base + M →
      st.free p = (.error .freeOutOfBounds, st)) ∧
    (∀ st', st.free p = (.error .nullPtrFree, st') → p = 0) := by
  obtain ⟨h0, haddr, hsize, hupper, hwf, hco, hacct⟩ := hinv
  refine ⟨rfl, ?_, ?_⟩
  · intro hp0 hout
    unfold BuddyAllocator.free BuddyAllocator.freeNonnull
    rw [if_neg hp0]
    have hob : p ≥ st.upperMemoryBound ∨ p < st.base := by
      rw [hupper]
      omega
    rw [if_pos hob]
  · intro st' heq
    by_cases hp : p = 0
    · exact hp
    · exfalso
      unfold BuddyAllocator.free BuddyAllocator.freeNonnull at heq
      rw [if_neg hp] at heq
      by_cases hob : p ≥ st.upperMemoryBound ∨ p < st.base
      · rw [if_pos hob] at heq
        simp at heq
      · rw [if_neg hob] at heq
        rcases hfree : st.allocTable.free p with ⟨ef | fr, table'⟩ <;>
          rw [hfree] at heq <;> dsimp only at heq
        · simp only [Prod.mk.injEq, Except.error.injEq] at heq
          rcases (free_error _ _ _ _ hfree).2 with hd | hd <;>
            rw [hd] at heq <;> simp at heq
        · simp at heq

/-- Witness for C7 at a fresh 32-byte allocator and the out-of-bounds
pointer 100. -/
theorem C7_free_null_and_bounds_witness :
    Inv 32 8 (BuddyAllocator.new 32 8 1) ∧
    ((BuddyAllocator.new 32 8 1).free 0 =
      (Except.error FreeError.nullPtrFree, BuddyAllocator.new 32 8 1)) ∧
    ((BuddyAllocator.new 32 8 1).free 100 =
      (Except.error FreeError.freeOutOfBounds, BuddyAllocator.new 32 8 1)) := by
  have hinv : Inv 32 8 (BuddyAllocator.new 32 8 1) :=
    inv_new (by norm_num) ⟨2, rfl⟩ (by norm_num)
  have h := C7_free_null_and_bounds (BuddyAllocator.new 32 8 1) hinv 100
  exact ⟨hinv, h.1, h.2.1 (by decide) (by right; decide)⟩

/-- C8 (failing input): the node-pool slab of `BuddyAllocator<32, 8>` has
`M / B = 4` cells, strictly fewer than the tight bound `2 * (M / B) - 1 = 7`
the spec requires, and the legal sequence of three `alloc_bytes(8)` calls on
the (never full) arena needs 6 non-root tree nodes, exceeding the pool: in
the Rust code the third call's `alloc_untyped().unwrap()` aborts. -/
theorem C8_slab_capacity_exceeded :
    slabCapacity 32 8 = 4 ∧ 2 * (32 / 8) - 1 = 7 ∧
    ¬(2 * (32 / 8) - 1 ≤ slabCapacity 32 8) ∧
    ∃ st1 st2 st3 : BuddyAllocator 32 8,
      (BuddyAllocator.new 32 8 1).allocBytes 8 = (Except.ok 1, st1) ∧
      st1.allocBytes 8 = (Except.ok 9, st2) ∧
      st2.allocBytes 8 = (Except.ok 17, st3) ∧
      st2.allocTable.nodeCount - 1 = slabCapacity 32 8 ∧
      st3.allocTable.nodeCount - 1 = 6 ∧
      slabCapacity 32 8 < st3.allocTable.nodeCount - 1 := by
  refine ⟨rfl, rfl, by decide,
    ⟨1, .parent 1 32 (.parent 1 16 (.allocatedLeaf 1 8) (.freeLeaf 9 8))
      (.freeLeaf 17 16), 33, 24⟩,
    ⟨1, .parent 1 32 (.parent 1 16 (.allocatedLeaf 1 8) (.allocatedLeaf 9 8))
      (.freeLeaf 17 16), 33, 16⟩,
    ⟨1, .parent 1 32 (.parent 1 16 (.allocatedLeaf 1 8) (.allocatedLeaf 9 8))
      (.parent 17 16 (.allocatedLeaf 17 8) (.freeLeaf 25 8)), 33, 8⟩,
    ?_, ?_, ?_, by decide, by decide, by decide⟩
  · simp [BuddyAllocator.new, BuddyAllocator.allocBytes, BlockNode.new,
      BlockNode.alloc, BlockNode.allocDown]
  · simp [BuddyAllocator.allocBytes, BlockNode.alloc, BlockNode.allocDown]
  · simp [BuddyAllocator.allocBytes, BlockNode.alloc, BlockNode.allocDown]

/-- C9: `alloc_bytes(0)` fails with `ZeroAllocation`; `alloc_bytes(s)` with
`s` above `total_free` (in particular above the heap size `M`) fails with
`OutOfMemory`; in all cases the state is returned unchanged. -/
theorem C9_zero_and_oom {M B : Nat} (hP : Params M B)
    (st : BuddyAllocator M B) (hinv : Inv M B st) (s : Nat) :
    st.allocBytes 0 = (.error .zeroAllocation, st) ∧
    (s > st.totalFree → st.allocBytes s = (.error .outOfMemory, st)) ∧
    (s > M → st.allocBytes s = (.error .outOfMemory, st)) := by
  have hB : 0 < B := by
    obtain ⟨⟨i, hi⟩, -⟩ := hP
    subst hi
    exact Nat.pos_pow_of_pos i (by omega)
  obtain ⟨h0, haddr, hsize, hupper, hwf, hco, hacct⟩ := hinv
  have hle : st.totalFree ≤ M := by
    have hfs := freeSum_le_size hB st.allocTable hwf
    omega
  refine ⟨allocBytes_zero st, ?_, ?_⟩
  · intro hgt
    exact allocBytes_oom st s (by omega) hgt
  · intro hgt
    exact allocBytes_oom st s (by omega) (by omega)

/-- Witness for C9 at the spec's concrete scenario `M = 1024`, `B = 8`,
request 1025. -/
theorem C9_zero_and_oom_witness :
    Params 1024 8 ∧ Inv 1024 8 (BuddyAllocator.new 1024 8 1) ∧
    ((BuddyAllocator.new 1024 8 1).allocBytes 0 =
      (Except.error AllocError.zeroAllocation, BuddyAllocator.new 1024 8 1)) ∧
    ((BuddyAllocator.new 1024 8 1).allocBytes 1025 =
      (Except.error AllocError.outOfMemory, BuddyAllocator.new 1024 8 1)) := by
  have hP : Params 1024 8 := ⟨⟨3, rfl⟩, ⟨7, rfl⟩⟩
  have hinv : Inv 1024 8 (BuddyAllocator.new 1024 8 1) :=
    inv_new (by norm_num) ⟨7, rfl⟩ (by norm_num)
  have h := C9_zero_and_oom hP (BuddyAllocator.new 1024 8 1) hinv 1025
  exact ⟨hP, hinv, h.1, h.2.2 (by norm_num)⟩

/-- C10: for a zero-sized type `T` (`size_of::<T>() = 0`), the typed
convenience `alloc::<T>()` delegates to `alloc_bytes(0)` and therefore always
fails with `ZeroAllocation` (it never succeeds), on every allocator state. -/
theorem C10_alloc_zero_sized (M B : Nat) (st : BuddyAllocator M B) :
    st.allocT 0 = (.error .zeroAllocation, st) := rfl

end Buddy
